import Mathlib

/-!
Verification development for the shopr core (src/shopr/main.py, src/shopr/elo.py).

The Python core is shallowly embedded: strings are Lean `String`s manipulated
through explicit `List Char` primitives that mirror the Python string/regex
operations used by the source, the score store (a `dict`/`defaultdict` mapping
keys to float ratings) is an association list from `String` to `ℝ`, checklist
items carry a name, an integer position and a completion state, and the Elo
arithmetic on float ratings is modelled over the reals.  Mutating procedures
are embedded as functions returning the new value of the mutated object.
-/

/-! ## Character and list-of-characters primitives -/

/-- The ASCII whitespace characters matched by Python's `str.strip`,
`str.split` with no separator, and the regex class `\s`. -/
def isWsChar (c : Char) : Bool :=
  c == ' ' || c == '\t' || c == '\n' || c == '\r' || c == '\x0b' || c == '\x0c'

/-- ASCII lower-casing of one character, as `str.lower` acts on ASCII text. -/
def charLower (c : Char) : Char :=
  if 'A' ≤ c ∧ c ≤ 'Z' then Char.ofNat (c.toNat + 32) else c

/-- `True` when `p` is an initial segment of `l` (Python slice comparison used
to locate occurrences for `str.replace`). -/
def startsWithL : List Char → List Char → Bool
  | [], _ => true
  | _ :: _, [] => false
  | a :: p, b :: l => a == b && startsWithL p l

/-- Fuel-driven worker for `replaceAll`. -/
def replaceAllAux (pat : List Char) : Nat → List Char → List Char
  | 0, l => l
  | _ + 1, [] => []
  | fuel + 1, c :: t =>
    if startsWithL pat (c :: t) then
      replaceAllAux pat fuel (List.drop pat.length (c :: t))
    else
      c :: replaceAllAux pat fuel t

/-- Python `s.replace(pat, "")` for a non-empty pattern: removes the
left-to-right non-overlapping occurrences of `pat` from `l`. -/
def replaceAll (pat l : List Char) : List Char :=
  replaceAllAux pat l.length l

/-- Worker for `collapseWs`; the flag records whether the previous character
belonged to a whitespace run that has already emitted its single space. -/
def collapseGo : Bool → List Char → List Char
  | _, [] => []
  | inRun, c :: t =>
    if isWsChar c then
      if inRun then collapseGo true t else ' ' :: collapseGo true t
    else
      c :: collapseGo false t

/-- Python `re.sub(r"\s+", " ", l)`: every maximal whitespace run becomes one
space. -/
def collapseWs (l : List Char) : List Char :=
  collapseGo false l

/-- Python `str.strip()`: remove leading and trailing whitespace. -/
def pyStrip (l : List Char) : List Char :=
  ((l.dropWhile isWsChar).reverse.dropWhile isWsChar).reverse

/-- Python `s.split(" ")`: split at every single space, keeping empty pieces;
the empty string yields one empty piece. -/
def splitSp : List Char → List (List Char)
  | [] => [[]]
  | c :: t =>
    if c == ' ' then [] :: splitSp t
    else
      match splitSp t with
      | [] => [[c]]
      | g :: gs => (c :: g) :: gs

/-- Strict lexicographic comparison by code point, Python `<` on strings. -/
def lexLt : List Char → List Char → Bool
  | [], [] => false
  | [], _ :: _ => true
  | _ :: _, [] => false
  | a :: as, b :: bs => a < b || (a == b && lexLt as bs)

/-- Insert a string into a sorted list of strings (`x` goes before the first
`y` that is not smaller than it). -/
def insSorted (x : String) : List String → List String
  | [] => [x]
  | y :: t => if !lexLt y.data x.data then x :: y :: t else y :: insSorted x t

/-- Python `sorted` on a list of strings (lexicographic by code point; any
sorting algorithm agrees because the order is total). -/
def sortStrings : List String → List String
  | [] => []
  | x :: t => insSorted x (sortStrings t)

/-- Python `",".join`. -/
def joinC : List String → String
  | [] => ""
  | [t] => t
  | t :: rest => t ++ "," ++ joinC rest

/-- Naive substring test: Python `re.search` of an escaped literal pattern. -/
def containsSub (pat : List Char) : List Char → Bool
  | [] => startsWithL pat []
  | c :: t => startsWithL pat (c :: t) || containsSub pat t

/-! ## Decimal digits: Python `str.isdigit`, `int(...)`, `str(int)` -/

/-- Python `str.isdigit` over ASCII: non-empty and all characters digits. -/
def isdigitL (l : List Char) : Bool :=
  !l.isEmpty && l.all Char.isDigit

/-- Numeric value of a digit character. -/
def charDigitVal (c : Char) : Nat := c.toNat - 48

/-- Python `int(...)` applied to a string of decimal digits. -/
def digitsVal (l : List Char) : Nat :=
  l.foldl (fun a c => 10 * a + charDigitVal c) 0

/-- The decimal digit character for `d % 10`. -/
def digitChar10 (d : Nat) : Char := Char.ofNat (48 + d % 10)

/-- Decimal rendering worker with explicit fuel. -/
def natToCharsF : Nat → Nat → List Char
  | 0, _ => []
  | fuel + 1, n =>
    if n < 10 then [digitChar10 n]
    else natToCharsF fuel (n / 10) ++ [digitChar10 n]

/-- Python `str(n)` for a natural number `n`. -/
def natToString (n : Nat) : String :=
  String.mk (natToCharsF (n + 1) n)

/-! ## The score store: a `dict`-like association list with real ratings -/

/-- Association list keyed by strings; the shallow embedding of a Python
`dict` (insertion order is the list order, as in CPython). -/
abbrev SDict (α : Type) : Type := List (String × α)

/-- Python `d[k]` read as a partial operation: `some` value when present. -/
def getK? {α : Type} (s : SDict α) (k : String) : Option α :=
  (List.find? (fun p => p.1 == k) s).map Prod.snd

/-- Python `k in d`. -/
def containsK {α : Type} (s : SDict α) (k : String) : Bool :=
  (List.find? (fun p => p.1 == k) s).isSome

/-- Read with a default value (used only where presence is guaranteed). -/
def getKD {α : Type} (s : SDict α) (k : String) (d : α) : α :=
  (getK? s k).getD d

/-- Python `d[k] = v`: overwrite the entry in place, or append a new one. -/
def setK {α : Type} : SDict α → String → α → SDict α
  | [], k, v => [(k, v)]
  | (k', v') :: t, k, v =>
    if k' == k then (k, v) :: t else (k', v') :: setK t k v

/-! ## KeyDeriver: `lookup_candidates` and the full key (main.py 126-147) -/

/-- `lookup_candidates` (main.py 126-147): lowercase, remove the literal
`"[unsorted]"`, remove digits and parentheses, collapse whitespace, strip,
split on single spaces and sort the tokens. -/
def derive (name : String) : List String :=
  let s1 := name.data.map charLower
  let s2 := replaceAll "[unsorted]".data s1
  let s3 := s3filter s2
  let s4 := pyStrip (collapseWs s3)
  sortStrings ((splitSp s4).map String.mk)
where
  /-- removal of `[\d\(\)]` by `re.sub`. -/
  s3filter (l : List Char) : List Char :=
    l.filter (fun c => !(c.isDigit || c == '(' || c == ')'))

/-- `full_key = ",".join(candidates)` (main.py 163/188/229). -/
def fullKey (toks : List String) : String := joinC toks

/-- The ordered candidate list `[full_key] + candidates` used by `lookup` and
`update`. -/
def candidates (name : String) : List String :=
  fullKey (derive name) :: derive name

/-- `DEFAULT_SCORE` (main.py 29). -/
def DEFAULT : ℝ := 1000

/-- The score store: keys to float ratings. -/
abbrev Store : Type := SDict ℝ

/-- Python `max(l, key=len)` on a non-empty list `y :: ys`: the first element
of greatest length (`max` keeps the incumbent unless a later element is
strictly greater). -/
def pyMaxLen (y : String) (ys : List String) : String :=
  ys.foldl (fun acc x => if x.length > acc.length then x else acc) y

/-- `lookup` (main.py 150-175): filter the candidates present in the store;
return the default score when none is, otherwise the stored rating of the
longest present candidate (first wins on ties). -/
def lookup (s : Store) (name : String) : ℝ :=
  let scored := (candidates name).filter (fun c => containsK s c)
  match scored with
  | [] => DEFAULT
  | y :: ys => getKD s (pyMaxLen y ys) DEFAULT

/-- `update` (main.py 178-190): write the score under the full key and under
every token. -/
def update (s : Store) (name : String) (score : ℝ) : Store :=
  (candidates name).foldl (fun st c => setK st c score) s

-- sanity checks mirroring §8 of the spec
example : derive "Milk" = ["milk"] := by decide
example : derive "Whole Milk" = ["milk", "whole"] := by decide
example : derive "Milk (2L)" = ["l", "milk"] := by decide
example : derive "[1unsorted]" = ["[unsorted]"] := by decide
example : lookup [] "anything" = 1000 := rfl
example : lookup [("milk,whole", (500 : ℝ)), ("milk", (600 : ℝ))] "Whole Milk" = 500 := rfl
example : lookup (update [] "Whole Milk" 500) "milk" = 500 := rfl

/-! ## Checklist data model (trello.py 76-96; only core-relevant fields) -/

/-- A Trello checklist item as the core sees it: display name, integer
position, completion state (`"complete"` / `"incomplete"`). -/
structure CheckItem where
  name : String
  pos : Int
  state : String

/-- A Trello checklist: the core only reads `checkItems`. -/
structure Checklist where
  id : String
  idCard : String
  checkItems : List CheckItem

/-! ## EloTrainer (elo.py, main.py 417-468) -/

/-- `EloRank.get_expected` (elo.py 15-25) with the default K-factor system:
`1 / (1 + 10 ** ((rating_b - rating_a) / 400))`, float arithmetic modelled
over the reals. -/
noncomputable def eloExpected (ra rb : ℝ) : ℝ :=
  1 / (1 + (10 : ℝ) ^ ((rb - ra) / 400))

/-- `EloRank.update_rating` (elo.py 27-43) with `k_factor = 32`:
`current + 32 * (actual - expected)`. -/
def eloUpdate (expected actual current : ℝ) : ℝ :=
  current + 32 * (actual - expected)

/-- One inner-loop iteration of `train` (main.py 439-466) for a fixed outer
item `cur`: the state is the score store plus the running score of `cur`.
Items sharing a position are skipped; otherwise both items' scores are
updated, the comparison score being re-read from the store and the running
current score fed forward. -/
noncomputable def innerStep (cur : CheckItem) (st : Store × ℝ) (cmp : CheckItem) :
    Store × ℝ :=
  if cur.pos = cmp.pos then st
  else
    let scores := st.1
    let currentScore := st.2
    let compareScore := lookup scores cmp.name
    let currentExpected := eloExpected currentScore compareScore
    let currentActual : ℝ := if cur.pos < cmp.pos then 0 else 1
    let newCurrentScore := eloUpdate currentExpected currentActual currentScore
    let scores1 := update scores cur.name newCurrentScore
    let compareExpected := eloExpected compareScore newCurrentScore
    let compareActual : ℝ := if cmp.pos < cur.pos then 0 else 1
    let newCompareScore := eloUpdate compareExpected compareActual compareScore
    (update scores1 cmp.name newCompareScore, newCurrentScore)

/-- One outer-loop iteration of `train` (main.py 436-466): read the current
item's score, run the inner loop over all items, keep the resulting store. -/
noncomputable def outerStep (items : List CheckItem) (scores : Store)
    (cur : CheckItem) : Store :=
  (items.foldl (innerStep cur) (scores, lookup scores cur.name)).1

/-- `dict(old_scores)` (main.py 430): builds a fresh dict holding the same
entries; on the association-list embedding the copied value is the value
itself. -/
def dictCopy (s : Store) : Store := s

/-- `make_scores` (main.py 38-43): a defaultdict seeded with the given
entries; the default is produced at lookup time in this embedding, so the
store value is just the entries. -/
def make_scores (data : Store) : Store := data

/-- The pure body of `train` starting from an already-seeded store. -/
noncomputable def trainCore (items : List CheckItem) (seed : Store) : Store :=
  items.foldl (fun scores cur => outerStep items scores cur) seed

/-- `train` (main.py 417-468) with Python reference semantics made explicit:
the result pair is (final state of the caller's `old_scores` object, returned
`scores` object).  The body copies `old_scores` into a fresh store
(`make_scores(dict(old_scores))`, main.py 430) and every `update` call inside
the loops targets that copy, so the first component is threaded through
unchanged. -/
noncomputable def trainSt (checklist : Checklist) (old_scores : Store) :
    Store × Store :=
  (old_scores, trainCore checklist.checkItems (make_scores (dictCopy old_scores)))

/-- The value returned by `train`. -/
noncomputable def train (checklist : Checklist) (old_scores : Store) : Store :=
  (trainSt checklist old_scores).2

/-! ## Consolidator: `parse_item_quantity`, `format_item_with_quantity`,
and the merge loop of `populate_shopping_list` (main.py 257-291, 322-375) -/

/-- Python `s.rsplit(maxsplit=1)` (split on whitespace from the right, at most
once): at most two parts, no empty parts, trailing whitespace ignored. -/
def rsplit1 (l : List Char) : List (List Char) :=
  let l' := (l.reverse.dropWhile isWsChar).reverse
  match l' with
  | [] => []
  | _ :: _ =>
    let r := l'.reverse
    let tokR := r.takeWhile (fun c => !isWsChar c)
    let restR := r.dropWhile (fun c => !isWsChar c)
    match restR.dropWhile isWsChar with
    | [] => [l']
    | h :: t => [(h :: t).reverse, tokR.reverse]

/-- `parse_item_quantity` (main.py 257-276): strip, right-split once; when
that yields two parts whose second is all digits, return (head, value);
otherwise return (stripped name, 1). -/
def parseQ (item_name : String) : String × Nat :=
  let parts := rsplit1 (pyStrip item_name.data)
  match parts with
  | [p0, p1] =>
    if isdigitL p1 then (String.mk p0, digitsVal p1)
    else (String.mk (pyStrip item_name.data), 1)
  | _ => (String.mk (pyStrip item_name.data), 1)

/-- `format_item_with_quantity` (main.py 279-291): append the quantity when it
exceeds one. -/
def formatQ (base_name : String) (quantity : Nat) : String :=
  if 1 < quantity then base_name ++ " " ++ natToString quantity else base_name

/-- Python `s.lower()` over ASCII text. -/
def lowerS (s : String) : String := String.mk (s.data.map charLower)

/-- The running `item_data` mapping of `populate_shopping_list` (main.py 324):
lowercase base name to (first-seen original base name, summed quantity). -/
abbrev ItemData : Type := SDict (String × Nat)

/-- One iteration of the merge loop of `populate_shopping_list`
(main.py 345-365): checked items are skipped; otherwise the parsed quantity
is added to the entry of the lowercase base, inserting the original-cased
base on first sight. -/
def consStep (acc : ItemData) (it : CheckItem) : ItemData :=
  if it.state == "complete" then acc
  else
    let p := parseQ it.name
    let k := lowerS p.1
    if containsK acc k then
      let e := getKD acc k ("", 0)
      setK acc k (e.1, e.2 + p.2)
    else
      acc ++ [(k, (p.1, p.2))]

/-- The consolidation pipeline of `populate_shopping_list` (main.py 322-375):
merge all source items, then emit `(formatted name, total quantity)` per
entry in insertion order (`item_data.values()`, main.py 368-370). -/
def consolidate (items : List CheckItem) : List (String × Nat) :=
  ((items.foldl consStep []).map fun e => (formatQ e.2.1 e.2.2, e.2.2))

/-! ## ListSorter: position and tagging logic of `order_list`
(main.py 221-244) -/

/-- Python `int(x)` on a float: truncation toward zero. -/
noncomputable def pyInt (x : ℝ) : Int :=
  if x < 0 then -⌊-x⌋ else ⌊x⌋

/-- `pos = int(lookup(scores, name) + 100000)` (main.py 224). -/
noncomputable def targetPos (scores : Store) (name : String) : Int :=
  pyInt (lookup scores name + 100000)

/-- `UNSORTED_TAG` (main.py 30). -/
def unsortedTag : String := " [unsorted]"

/-- `bool(UNSORTED_RE.search(name))` (main.py 231): the regex
`r"\[unsorted\]"` matches exactly when the literal text occurs in `name`. -/
def hasMarkerB (name : String) : Bool :=
  containsSub "[unsorted]".data name.data

/-- The name written back by `order_list` (main.py 226-244): unchanged when
the target position already equals the item's, or when the exact full key is
stored, or when the marker already occurs; otherwise the marker is
appended. -/
noncomputable def orderedName (scores : Store) (it : CheckItem) : String :=
  if it.pos = targetPos scores it.name then it.name
  else
    let has_score := containsK scores (fullKey (derive it.name))
    if !has_score && !hasMarkerB it.name then it.name ++ unsortedTag
    else it.name

/-! ## Python's digit test versus `int()`: the fragment where they differ -/

/-- Python `str.isdigit` on one character, over the modeled fragment of ASCII
text extended with the Latin-1 superscript digits: true for the ASCII decimal
digits and also for '¹', '²', '³' (U+00B9, U+00B2, U+00B3), which
`str.isdigit` accepts but `int()` rejects. -/
def charIsDigitPy (c : Char) : Bool :=
  c.isDigit || c == '¹' || c == '²' || c == '³'

/-- Python `str.isdigit` over a string of the fragment: non-empty and all
characters digit-like. -/
def isdigitPyL (l : List Char) : Bool :=
  !l.isEmpty && l.all charIsDigitPy

/-- Python `int()` as a fallible primitive over the fragment: it succeeds
exactly on non-empty strings of ASCII decimal digits and raises `ValueError`
on the superscript digits (which are category No, not decimal digits). -/
def intConvPy (l : List Char) : Option Nat :=
  if isdigitL l then some (digitsVal l) else none

/-- `parse_item_quantity` (main.py 257-276) with its fallible primitives kept
fallible: the guard is Python's `str.isdigit` (`isdigitPyL`, which also
accepts the superscript digits) while the conversion is `int()` (`intConvPy`,
which rejects them), so guard and conversion domain genuinely differ and
`none` marks exactly the inputs on which the function raises `ValueError`. -/
def parseQPy (item_name : String) : Option (String × Nat) :=
  let parts := rsplit1 (pyStrip item_name.data)
  if parts.length = 2 then
    match parts[1]? with
    | none => none
    | some p1 =>
      if isdigitPyL p1 then
        match intConvPy p1, parts[0]? with
        | some v, some p0 => some (String.mk p0, v)
        | _, _ => none
      else some (String.mk (pyStrip item_name.data), 1)
  else some (String.mk (pyStrip item_name.data), 1)

/-! ## Spec-side definitions (formalising the claims' wording, to be compared
with the source translations above) -/

/-- Greatest string length in a list. -/
def maxLenOf (l : List String) : Nat :=
  l.foldr (fun s m => max s.length m) 0

/-- The first candidate of greatest string length, per the spec's tie-break
rule ("greatest string length, ties broken in favor of the earliest candidate
in the list"). -/
def firstLongest (l : List String) : Option String :=
  l.find? (fun s => s.length == maxLenOf l)

/-- `lookup` as worded by the spec: build `[full] + tokens`, filter to the
keys present, default when empty, otherwise the stored rating of the first
longest present candidate. -/
def lookupSpec (s : Store) (name : String) : ℝ :=
  let cands := fullKey (derive name) :: derive name
  let scored := cands.filter (fun c => containsK s c)
  match firstLongest scored with
  | none => DEFAULT
  | some c => getKD s c DEFAULT

/-- The last whitespace-delimited token of the trimmed name (spec §4.5:
"take the last whitespace-delimited token"). -/
def lastTokenOf (s : String) : List Char :=
  ((pyStrip s.data).reverse.takeWhile (fun c => !isWsChar c)).reverse

/-- The reversed remainder of the trimmed name before its last token, still
carrying the whitespace run that separated them. -/
def restBeforeLastToken (s : String) : List Char :=
  (pyStrip s.data).reverse.dropWhile (fun c => !isWsChar c)

/-- `parseQuantity` exactly as claim C6 words it: take the last
whitespace-delimited token of the trimmed name; if it consists only of digit
characters return (remaining prefix, its integer value); otherwise return
(trimmed full name, 1). -/
def parseSpecClaim (s : String) : String × Nat :=
  let tok := lastTokenOf s
  if isdigitL tok then
    (String.mk ((restBeforeLastToken s).dropWhile isWsChar).reverse, digitsVal tok)
  else (String.mk (pyStrip s.data), 1)

/-- `parseQuantity` as amended: the digit branch additionally requires the
trimmed name to contain more than one whitespace-delimited token (i.e. some
whitespace precedes the last token). -/
def parseSpecAmended (s : String) : String × Nat :=
  let tok := lastTokenOf s
  if isdigitL tok && !(restBeforeLastToken s).isEmpty then
    (String.mk ((restBeforeLastToken s).dropWhile isWsChar).reverse, digitsVal tok)
  else (String.mk (pyStrip s.data), 1)

/-- Completion-state filter used by the consolidation claims ("items whose
completion state is not complete"). -/
def keepItem (it : CheckItem) : Bool := !(it.state == "complete")

/-- The lowercase-normalized base name of an item. -/
def baseKeyOf (it : CheckItem) : String := lowerS (parseQ it.name).1

/-- First-occurrence deduplication, preserving the order in which keys are
first seen. -/
def firstSeen (l : List String) : List String :=
  l.foldl (fun acc k => if acc.contains k then acc else acc ++ [k]) []

/-- The distinct lowercase base keys of the incomplete items, in first
insertion order. -/
def specKeys (items : List CheckItem) : List String :=
  firstSeen ((items.filter keepItem).map baseKeyOf)

/-- Sum of the parsed quantities of the incomplete occurrences of base key
`k`. -/
def sumQty (items : List CheckItem) (k : String) : Nat :=
  (((items.filter keepItem).filter (fun it => baseKeyOf it == k)).map
    (fun it => (parseQ it.name).2)).sum

/-- Original-case base of the first incomplete occurrence of base key `k`. -/
def firstBase (items : List CheckItem) (k : String) : String :=
  match (items.filter keepItem).find? (fun it => baseKeyOf it == k) with
  | some it => (parseQ it.name).1
  | none => ""

/-- `consolidate` as claim C5 words it: one entry per distinct lowercase base
among incomplete items, in first-insertion order, formatted from the first
occurrence's casing and the summed quantity. -/
def specConsolidate (items : List CheckItem) : List (String × Nat) :=
  (specKeys items).map fun k =>
    (formatQ (firstBase items k) (sumQty items k), sumQty items k)

/-! ## Lemmas about the dictionary embedding -/

theorem setK_cons_self {α : Type} (k : String) (v v' : α) (t : SDict α) :
    setK ((k, v') :: t) k v = (k, v) :: t := by
  simp [setK]

theorem setK_cons_ne {α : Type} {k₀ k : String} (h : k₀ ≠ k) (v v' : α)
    (t : SDict α) : setK ((k₀, v') :: t) k v = (k₀, v') :: setK t k v := by
  simp [setK, h]

theorem getK?_cons_self {α : Type} (k : String) (v : α) (t : SDict α) :
    getK? ((k, v) :: t) k = some v := by
  simp [getK?, List.find?]

theorem getK?_cons_ne {α : Type} {k₀ k : String} (h : k₀ ≠ k) (v : α)
    (t : SDict α) : getK? ((k₀, v) :: t) k = getK? t k := by
  have hb : (k₀ == k) = false := by
    simpa using h
  simp [getK?, List.find?, hb]

theorem getK?_setK_self {α : Type} (s : SDict α) (k : String) (v : α) :
    getK? (setK s k v) k = some v := by
  induction s with
  | nil => exact getK?_cons_self k v []
  | cons p t ih =>
    obtain ⟨k₀, v₀⟩ := p
    by_cases h : k₀ = k
    · subst h
      rw [setK_cons_self, getK?_cons_self]
    · rw [setK_cons_ne h, getK?_cons_ne h]
      exact ih

theorem getK?_setK_of_ne {α : Type} (s : SDict α) {k k' : String} (v : α)
    (h : k' ≠ k) : getK? (setK s k v) k' = getK? s k' := by
  induction s with
  | nil =>
    show getK? [(k, v)] k' = getK? [] k'
    rw [getK?_cons_ne (Ne.symm h)]
  | cons p t ih =>
    obtain ⟨k₀, v₀⟩ := p
    by_cases h₀ : k₀ = k
    · subst h₀
      rw [setK_cons_self, getK?_cons_ne (Ne.symm h), getK?_cons_ne (Ne.symm h)]
    · by_cases h₁ : k₀ = k'
      · subst h₁
        rw [setK_cons_ne h₀, getK?_cons_self, getK?_cons_self]
      · rw [setK_cons_ne h₀, getK?_cons_ne h₁, getK?_cons_ne h₁]
        exact ih

theorem containsK_eq_isSome_getK? {α : Type} (s : SDict α) (k : String) :
    containsK s k = (getK? s k).isSome := by
  cases h : List.find? (fun p => p.1 == k) s <;> simp [containsK, getK?, h]

theorem getKD_of_getK? {α : Type} {s : SDict α} {k : String} {v : α}
    (h : getK? s k = some v) (d : α) : getKD s k d = v := by
  simp [getKD, h]

/-- Writing the same value under every key of a list: a key that is written,
or already read back `v`, reads back `v` afterwards. -/
theorem getK?_writeList {α : Type} (L : List String) (s : SDict α) (v : α)
    {k : String} (h : k ∈ L ∨ getK? s k = some v) :
    getK? (L.foldl (fun st c => setK st c v) s) k = some v := by
  induction L generalizing s with
  | nil =>
    rcases h with h | h
    · cases h
    · exact h
  | cons c L ih =>
    have : k ∈ L ∨ getK? (setK s c v) k = some v := by
      rcases h with h | h
      · rcases List.mem_cons.mp h with h' | h'
        · exact Or.inr (h' ▸ getK?_setK_self s k v)
        · exact Or.inl h'
      · by_cases hkc : k = c
        · exact Or.inr (hkc ▸ getK?_setK_self s k v)
        · exact Or.inr ((getK?_setK_of_ne s v hkc).trans h)
    simpa using ih (setK s c v) this

theorem getK?_writeList_mem {α : Type} (L : List String) (s : SDict α)
    (v : α) {k : String} (hk : k ∈ L) :
    getK? (L.foldl (fun st c => setK st c v) s) k = some v :=
  getK?_writeList L s v (Or.inl hk)

/-- Writing a list of keys does not change the keys outside the list. -/
theorem getK?_writeList_not_mem {α : Type} (L : List String) (s : SDict α)
    (v : α) {k : String} (hk : k ∉ L) :
    getK? ((L.foldl (fun st c => setK st c v) s)) k = getK? s k := by
  induction L generalizing s with
  | nil => rfl
  | cons c L ih =>
    have hkL : k ∉ L := fun h => hk (List.mem_cons_of_mem _ h)
    have hkc : k ≠ c := fun h => hk (h ▸ List.mem_cons_self c L)
    calc getK? ((c :: L).foldl (fun st c' => setK st c' v) s) k
        = getK? (L.foldl (fun st c' => setK st c' v) (setK s c v)) k := rfl
      _ = getK? (setK s c v) k := ih (setK s c v) hkL
      _ = getK? s k := getK?_setK_of_ne s v hkc

theorem containsK_update_mem (s : Store) (n : String) (v : ℝ) {k : String}
    (hk : k ∈ candidates n) : containsK (update s n v) k = true := by
  rw [containsK_eq_isSome_getK?, update, getK?_writeList_mem _ _ _ hk]
  rfl

theorem containsK_update_not_mem (s : Store) (n : String) (v : ℝ) {k : String}
    (hk : k ∉ candidates n) : containsK (update s n v) k = containsK s k := by
  rw [containsK_eq_isSome_getK?, update, getK?_writeList_not_mem _ _ _ hk,
    containsK_eq_isSome_getK?]

/-! ## Lemmas about `pyMaxLen` (Python `max(..., key=len)`) -/

theorem pyMaxLen_mem (y : String) (ys : List String) :
    pyMaxLen y ys ∈ y :: ys := by
  induction ys generalizing y with
  | nil => simp [pyMaxLen]
  | cons z ys ih =>
    rw [pyMaxLen, List.foldl_cons]
    by_cases h : z.length > y.length
    · rw [if_pos h]
      exact List.mem_cons_of_mem y (ih z)
    · rw [if_neg h]
      rcases List.mem_cons.mp (ih y) with h' | h'
      · exact List.mem_cons.mpr (Or.inl h')
      · exact List.mem_cons.mpr (Or.inr (List.mem_cons_of_mem z h'))

theorem pyMaxLen_eq_head (y : String) (ys : List String)
    (h : ∀ x ∈ ys, x.length ≤ y.length) : pyMaxLen y ys = y := by
  induction ys with
  | nil => rfl
  | cons z ys ih =>
    rw [pyMaxLen, List.foldl_cons, if_neg]
    · exact ih fun x hx => h x (List.mem_cons_of_mem _ hx)
    · exact not_lt_of_ge (h z (List.mem_cons_self z ys))

/-! ## Length of the full key versus its tokens -/

theorem length_le_joinC (toks : List String) :
    ∀ t ∈ toks, t.length ≤ (joinC toks).length := by
  induction toks with
  | nil => intro t ht; cases ht
  | cons t rest ih =>
    intro x hx
    cases rest with
    | nil =>
      rcases List.mem_cons.mp hx with h | h
      · simp [joinC, h]
      · cases h
    | cons r rest' =>
      have hj : joinC (t :: r :: rest') = t ++ "," ++ joinC (r :: rest') := rfl
      rcases List.mem_cons.mp hx with h | h
      · subst h
        simp only [hj, String.length_append]
        omega
      · have := ih x h
        simp only [hj, String.length_append]
        omega

/-! ## How `lookup` reads through `update` -/

theorem lookup_update_self (s : Store) (n : String) (v : ℝ) :
    lookup (update s n v) n = v := by
  have hall : ∀ c ∈ candidates n, containsK (update s n v) c = true :=
    fun c hc => containsK_update_mem s n v hc
  have hfil : (candidates n).filter (fun c => containsK (update s n v) c) =
      candidates n := List.filter_eq_self.mpr hall
  simp only [lookup, hfil]
  have hmem : pyMaxLen (fullKey (derive n)) (derive n) ∈ candidates n :=
    pyMaxLen_mem _ _
  show getKD (update s n v) (pyMaxLen (fullKey (derive n)) (derive n)) DEFAULT = v
  exact getKD_of_getK? (getK?_writeList_mem (candidates n) s v hmem) DEFAULT

theorem lookup_update_of_disjoint (s : Store) {m n : String} (v : ℝ)
    (hdisj : ∀ c ∈ candidates m, c ∉ candidates n) :
    lookup (update s n v) m = lookup s m := by
  have hcont : ∀ c ∈ candidates m,
      containsK (update s n v) c = containsK s c :=
    fun c hc => containsK_update_not_mem s n v (hdisj c hc)
  have hfil : (candidates m).filter (fun c => containsK (update s n v) c) =
      (candidates m).filter (fun c => containsK s c) :=
    List.filter_congr hcont
  simp only [lookup, hfil]
  cases h : (candidates m).filter (fun c => containsK s c) with
  | nil => rfl
  | cons y ys =>
    have hchos : pyMaxLen y ys ∈ candidates m := by
      have h1 : pyMaxLen y ys ∈ y :: ys := pyMaxLen_mem y ys
      have h2 : pyMaxLen y ys ∈
          (candidates m).filter (fun c => containsK s c) := h ▸ h1
      exact List.mem_of_mem_filter h2
    have hget : getK? (update s n v) (pyMaxLen y ys) =
        getK? s (pyMaxLen y ys) :=
      getK?_writeList_not_mem (candidates n) s v (hdisj _ hchos)
    simp [getKD, hget]

/-! ## First-longest selection: the spec's tie-break versus Python `max` -/

theorem le_maxLenOf {l : List String} {x : String} (h : x ∈ l) :
    x.length ≤ maxLenOf l := by
  induction l with
  | nil => cases h
  | cons y t ih =>
    rcases List.mem_cons.mp h with h' | h'
    · simp [maxLenOf, h']
    · have := ih h'
      simp only [maxLenOf, List.foldr_cons] at *
      omega

theorem firstLongest_cons (y : String) (ys : List String) :
    firstLongest (y :: ys) = some (pyMaxLen y ys) := by
  induction ys generalizing y with
  | nil =>
    simp [firstLongest, maxLenOf, pyMaxLen, List.find?]
  | cons z ys ih =>
    have hM : maxLenOf (y :: z :: ys) = max y.length (maxLenOf (z :: ys)) := rfl
    by_cases h : z.length > y.length
    · have hylt : y.length < maxLenOf (z :: ys) :=
        lt_of_lt_of_le h (le_maxLenOf (List.mem_cons_self z ys))
      have hMeq : maxLenOf (y :: z :: ys) = maxLenOf (z :: ys) := by
        rw [hM]; omega
      have hpm : pyMaxLen y (z :: ys) = pyMaxLen z ys := by
        rw [pyMaxLen, List.foldl_cons, if_pos h]; rfl
      have hb_y : (y.length == maxLenOf (z :: ys)) = false := by
        simpa using Nat.ne_of_lt hylt
      rw [hpm, ← ih z, firstLongest, firstLongest, hMeq]
      simp only [List.find?, hb_y]
    · have hzy : z.length ≤ y.length := le_of_not_lt h
      have hpm : pyMaxLen y (z :: ys) = pyMaxLen y ys := by
        rw [pyMaxLen, List.foldl_cons, if_neg h]; rfl
      have hMeq : maxLenOf (y :: z :: ys) = maxLenOf (y :: ys) := by
        show max y.length (max z.length (maxLenOf ys)) =
          max y.length (maxLenOf ys)
        omega
      by_cases hy : y.length = maxLenOf (y :: ys)
      · have hb_y : (y.length == maxLenOf (y :: ys)) = true := by
          simpa using hy
        have h1 := ih y
        rw [firstLongest] at h1
        simp only [List.find?, hb_y] at h1
        rw [hpm, firstLongest, hMeq]
        simp only [List.find?, hb_y]
        exact h1
      · have hb_y : (y.length == maxLenOf (y :: ys)) = false := by
          simpa using hy
        have hzne : z.length ≠ maxLenOf (y :: ys) := by
          have hyle : y.length ≤ maxLenOf (y :: ys) :=
            le_maxLenOf (List.mem_cons_self y ys)
          omega
        have hb_z : (z.length == maxLenOf (y :: ys)) = false := by
          simpa using hzne
        have h1 := ih y
        rw [firstLongest] at h1
        simp only [List.find?, hb_y] at h1
        rw [hpm, firstLongest, hMeq]
        simp only [List.find?, hb_y, hb_z]
        exact h1

/-! ## Claim C3 -/

/-- C3: `lookup` filters the ordered candidate list `[fullKey] ++ tokens` to
the keys present in the store, returns the default 1000.0 when none is
present, and otherwise the stored rating of the longest present candidate
with ties broken towards the earliest; in particular, whenever the full key
itself is present, `lookup` returns the full key's rating. -/
theorem C3_lookup_characterization (s : Store) (n : String) :
    lookup s n = lookupSpec s n ∧
    (containsK s (fullKey (derive n)) = true →
      lookup s n = getKD s (fullKey (derive n)) DEFAULT) := by
  constructor
  · simp only [lookup, lookupSpec, candidates]
    cases h : (fullKey (derive n) :: derive n).filter
        (fun c => containsK s c) with
    | nil => rfl
    | cons y ys => rw [firstLongest_cons]
  · intro hfull
    have hfil : (candidates n).filter (fun c => containsK s c) =
        fullKey (derive n) ::
          (derive n).filter (fun c => containsK s c) := by
      simp [candidates, List.filter_cons, hfull]
    simp only [lookup, hfil]
    have hhead : pyMaxLen (fullKey (derive n))
        ((derive n).filter (fun c => containsK s c)) = fullKey (derive n) := by
      apply pyMaxLen_eq_head
      intro x hx
      exact length_le_joinC (derive n) x (List.mem_of_mem_filter hx)
    rw [hhead]

/-- Witness for C3 at the spec's own example store: the full key
`"milk,whole"` is present, so `lookup` returns its rating rather than the
single-token rating. -/
theorem C3_lookup_characterization_witness :
    lookup [("milk,whole", (500 : ℝ)), ("milk", (600 : ℝ))] "Whole Milk" =
      getKD [("milk,whole", (500 : ℝ)), ("milk", (600 : ℝ))]
        (fullKey (derive "Whole Milk")) DEFAULT :=
  (C3_lookup_characterization
    [("milk,whole", (500 : ℝ)), ("milk", (600 : ℝ))] "Whole Milk").2 (by decide)

/-! ## Claim C4 -/

/-- C4 fails as stated: `update` writes the derived keys of the *name*, but a
token whose own derivation differs from itself (here `"[unsorted]"`, a token
of `"[1unsorted]"` — digit removal manufactures the marker literal, which
derivation then deletes) reads back the default, not the written rating. -/
theorem C4_counterexample :
    "[unsorted]" ∈ derive "[1unsorted]" ∧
    lookup (update [] "[1unsorted]" 500) "[unsorted]" = 1000 ∧
    (1000 : ℝ) ≠ 500 := by
  refine ⟨by decide, ?_, by norm_num⟩
  rfl

/-- C4 (amended): after `update(s, n, r)`, the store maps the full key and
every token of `derive(n)` to `r`, a subsequent `lookup` of `n` returns `r`,
and the lookup of any single token that key-derivation leaves fixed (all
ordinary tokens; only tokens containing the literal marker text are moved by
derivation) also returns `r`. -/
theorem C4_update_lookup_roundtrip (s : Store) (n : String) (r : ℝ) :
    (∀ c ∈ candidates n, getK? (update s n r) c = some r) ∧
    lookup (update s n r) n = r ∧
    (∀ t ∈ derive n, derive t = [t] → lookup (update s n r) t = r) := by
  refine ⟨fun c hc => getK?_writeList_mem _ _ _ hc,
    lookup_update_self s n r, ?_⟩
  intro t ht hfix
  have hc : candidates t = [t, t] := by
    rw [candidates, hfix]; rfl
  have hmem : t ∈ candidates n := List.mem_cons_of_mem _ ht
  have h1 : getK? (update s n r) t = some r := getK?_writeList_mem _ _ _ hmem
  have hcont : containsK (update s n r) t = true := by
    rw [containsK_eq_isSome_getK?, h1]; rfl
  have hfil : [t, t].filter (fun c => containsK (update s n r) c) = [t, t] := by
    simp [hcont]
  simp only [lookup, hc, hfil]
  have hpm : pyMaxLen t [t] = t := pyMaxLen_eq_head t [t] (by simp)
  rw [hpm]
  exact getKD_of_getK? h1 DEFAULT

/-- Witness for C4 (amended) at the spec's round-trip example. -/
theorem C4_update_lookup_roundtrip_witness :
    lookup (update [] "Whole Milk" 500) "milk" = 500 :=
  (C4_update_lookup_roundtrip [] "Whole Milk" 500).2.2 "milk"
    (by decide) (by decide)

/-! ## Claim C7 -/

/-- C7: when the computed target position differs from the item's, the
written-back name carries the appended marker exactly when the exact full key
is absent and the marker text does not already occur in the name; in every
other case (full key present, marker present, or positions equal) the name is
returned unchanged — so a duplicate marker is never appended. -/
theorem C7_marker_append_iff (s : Store) (it : CheckItem) :
    (orderedName s it = it.name ++ unsortedTag ↔
      it.pos ≠ targetPos s it.name ∧
        containsK s (fullKey (derive it.name)) = false ∧
        hasMarkerB it.name = false) ∧
    ((it.pos = targetPos s it.name ∨
        containsK s (fullKey (derive it.name)) = true ∨
        hasMarkerB it.name = true) → orderedName s it = it.name) := by
  have h11 : unsortedTag.length = 11 := rfl
  have hne : it.name ++ unsortedTag ≠ it.name := by
    intro h
    have hlen := congrArg String.length h
    rw [String.length_append, h11] at hlen
    omega
  by_cases hpos : it.pos = targetPos s it.name
  · constructor
    · rw [orderedName, if_pos hpos]
      constructor
      · intro h
        exact absurd h.symm hne
      · rintro ⟨hne', _, _⟩
        exact absurd hpos hne'
    · intro _
      rw [orderedName, if_pos hpos]
  · cases hsc : containsK s (fullKey (derive it.name)) with
    | false =>
      cases hmk : hasMarkerB it.name with
      | false =>
        have hgo : orderedName s it = it.name ++ unsortedTag := by
          simp [orderedName, hpos, hsc, hmk]
        constructor
        · rw [hgo]
          exact ⟨fun _ => ⟨hpos, rfl, rfl⟩, fun _ => rfl⟩
        · rintro (h | h | h)
          · exact absurd h hpos
          · exact absurd h (by decide)
          · exact absurd h (by decide)
      | true =>
        have hgo : orderedName s it = it.name := by
          simp [orderedName, hpos, hsc, hmk]
        constructor
        · rw [hgo]
          constructor
          · intro h
            exact absurd h.symm hne
          · rintro ⟨_, _, hm⟩
            exact absurd hm (by decide)
        · intro _
          exact hgo
    | true =>
      have hgo : orderedName s it = it.name := by
        simp [orderedName, hpos, hsc]
      constructor
      · rw [hgo]
        constructor
        · intro h
          exact absurd h.symm hne
        · rintro ⟨_, hs', _⟩
          exact absurd hs' (by decide)
      · intro _
        exact hgo

/-- Witness for C7: a name already carrying the marker is returned
unchanged. -/
theorem C7_marker_append_iff_witness :
    orderedName [] ⟨"x [unsorted]", 5, "incomplete"⟩ = "x [unsorted]" :=
  (C7_marker_append_iff [] ⟨"x [unsorted]", 5, "incomplete"⟩).2
    (Or.inr (Or.inr (by decide)))

/-! ## Claim C8 -/

/-- C8 fails as stated: the source computes `int(lookup + 100000)`, and
Python `int` truncates toward zero, so a rating of `-100000.5` yields target
position `0` while `floor(lookup) + 100000 = -1`. -/
theorem C8_counterexample :
    targetPos [("x", -(200001 : ℝ) / 2)] "x" = 0 ∧
    Int.floor (lookup [("x", -(200001 : ℝ) / 2)] "x") + 100000 = -1 ∧
    (0 : ℤ) ≠ -1 := by
  have hl : lookup [("x", -(200001 : ℝ) / 2)] "x" = -(200001 : ℝ) / 2 := rfl
  refine ⟨?_, ?_, by decide⟩
  · rw [targetPos, hl, pyInt, if_pos (by norm_num)]
    have h2 : -(-(200001 : ℝ) / 2 + 100000) = 1 / 2 := by norm_num
    rw [h2]
    have h3 : Int.floor ((1 : ℝ) / 2) = 0 := by
      rw [Int.floor_eq_iff]
      all_goals norm_num
    rw [h3]
    rfl
  · rw [hl]
    have h4 : Int.floor (-(200001 : ℝ) / 2) = -100001 := by
      rw [Int.floor_eq_iff]
      all_goals norm_num
    rw [h4]
    decide

/-- C8 (amended): whenever `lookup + 100000` is nonnegative — in particular
for every nonnegative rating — the computed target position equals
`floor(lookup) + 100000`. -/
theorem C8_target_is_floor_plus_offset (s : Store) (n : String)
    (h : 0 ≤ lookup s n + 100000) :
    targetPos s n = Int.floor (lookup s n) + 100000 := by
  rw [targetPos, pyInt, if_neg (not_lt.mpr h)]
  have h1 : (100000 : ℝ) = ((100000 : ℤ) : ℝ) := by norm_num
  rw [h1, Int.floor_add_int]

/-- Witness for C8 (amended) on the empty store. -/
theorem C8_target_is_floor_plus_offset_witness :
    targetPos [] "x" = Int.floor (lookup [] "x") + 100000 :=
  C8_target_is_floor_plus_offset [] "x"
    (by rw [show lookup [] "x" = 1000 from rfl]; norm_num)

/-! ## Claim C2 -/

/-- C2: `train` leaves the caller's prior store untouched (its final state is
its initial value: every `update` in the body targets the freshly seeded
copy), returns the result of running the training loops on the seed, and the
seed holds exactly the prior store's entries. -/
theorem C2_train_does_not_mutate_prior (chk : Checklist) (prior : Store) :
    (trainSt chk prior).1 = prior ∧
    train chk prior = trainCore chk.checkItems (make_scores (dictCopy prior)) ∧
    (∀ k, getK? (make_scores (dictCopy prior)) k = getK? prior k) :=
  ⟨rfl, rfl, fun _ => rfl⟩

/-! ## Facts about stripping, used by the parser claims -/

theorem dropWhile_head_false (p : Char → Bool) (l : List Char) {a : Char}
    {u : List Char} (h : l.dropWhile p = a :: u) : p a = false := by
  induction l with
  | nil => simp at h
  | cons b t ih =>
    rw [List.dropWhile_cons] at h
    by_cases hb : p b = true
    · rw [if_pos hb] at h
      exact ih h
    · rw [if_neg hb] at h
      injection h with h1 h2
      subst h1
      simpa using hb

/-- The trimmed string carries no trailing whitespace: right-trimming it
again is the identity. -/
theorem rdrop_pyStrip (l : List Char) :
    ((pyStrip l).reverse.dropWhile isWsChar).reverse = pyStrip l := by
  show List.rdropWhile isWsChar (List.rdropWhile isWsChar (l.dropWhile isWsChar)) =
    List.rdropWhile isWsChar (l.dropWhile isWsChar)
  rw [List.rdropWhile_idempotent]

/-- The trimmed string starts with a non-whitespace character. -/
theorem head_pyStrip_false (l : List Char) {a : Char} {u : List Char}
    (h : pyStrip l = a :: u) : isWsChar a = false := by
  obtain ⟨t2, ht2⟩ := List.rdropWhile_prefix isWsChar (l.dropWhile isWsChar)
  have h' : List.rdropWhile isWsChar (l.dropWhile isWsChar) = a :: u := h
  rw [h'] at ht2
  exact dropWhile_head_false isWsChar l (by rw [← ht2]; rfl)

/-! ## Claim C6 -/

/-- C6 fails as stated: for a trimmed name that is a single all-digit token
(`"2"`), the code keeps the whole name with quantity 1, while the claimed
rule would return the empty prefix with quantity 2. -/
theorem C6_counterexample :
    parseQ "2" = ("2", 1) ∧ parseSpecClaim "2" = ("", 2) ∧
    parseQ "2" ≠ parseSpecClaim "2" := by
  refine ⟨by decide, by decide, by decide⟩

/-- C6 (amended): `parseQuantity` takes the last whitespace-delimited token
of the trimmed name; only when the trimmed name has more than one token and
that last token consists solely of digits does it return (remaining prefix,
token value); otherwise it returns (trimmed full name, 1). -/
theorem C6_parse_eq_amended (s : String) : parseQ s = parseSpecAmended s := by
  simp only [parseQ, parseSpecAmended, rsplit1, lastTokenOf, restBeforeLastToken]
  rw [rdrop_pyStrip]
  cases hts : pyStrip s.data with
  | nil => rfl
  | cons a u =>
    have haw : isWsChar a = false := head_pyStrip_false s.data hts
    cases hrest : List.dropWhile (fun x => !isWsChar x) (a :: u).reverse with
    | nil =>
      simp only [List.dropWhile_nil, List.isEmpty_nil, Bool.not_true,
        Bool.and_false]
      rfl
    | cons h0 rest0 =>
      have hnnil : (h0 :: rest0).dropWhile isWsChar ≠ [] := by
        intro hnil
        have hall := List.dropWhile_eq_nil_iff.mp hnil
        obtain ⟨pre, hpre⟩ :=
          List.dropWhile_suffix (l := (a :: u).reverse) (fun x => !isWsChar x)
        rw [hrest] at hpre
        have hrev : (h0 :: rest0).reverse ++ pre.reverse = a :: u := by
          rw [← List.reverse_append, hpre, List.reverse_reverse]
        cases hr : (h0 :: rest0).reverse with
        | nil => simp at hr
        | cons b v =>
          rw [hr] at hrev
          have hba : b = a := by
            rw [List.cons_append] at hrev
            injection hrev with h3 h4
          have hmem : a ∈ h0 :: rest0 := by
            rw [← List.mem_reverse, hr, ← hba]
            exact List.mem_cons_self b v
          have hwsa := hall a hmem
          rw [haw] at hwsa
          exact absurd hwsa (by decide)
      cases hdw : List.dropWhile isWsChar (h0 :: rest0) with
      | nil => exact absurd hdw hnnil
      | cons h1 rest1 =>
        simp only [List.isEmpty_cons, Bool.not_false, Bool.and_true]

/-! ## Claim C9 -/

/-- C9 is false of the code: for the name "x ²" the trimmed name splits into
two parts, the trailing token "²" (U+00B2) satisfies the `str.isdigit`
guard, yet `int("²")` raises `ValueError` — so `parse_item_quantity` (and
consolidation, which calls it on every incomplete item) crashes instead of
returning a result, against the spec's stated totality; the guard exists
precisely to protect the conversion, so the conversion's wider guard is the
slip. -/
theorem C9_parse_guard_int_mismatch :
    isdigitPyL ['²'] = true ∧ intConvPy ['²'] = none ∧
    parseQPy "x ²" = none :=
  ⟨by decide, by decide, by decide⟩

/-! ## Decimal rendering facts, for the format/parse round trip -/

theorem digitChar10_isDigit (d : Nat) : (digitChar10 d).isDigit = true := by
  have h : d % 10 < 10 := Nat.mod_lt _ (by norm_num)
  simp only [digitChar10]
  set m := d % 10 with hm
  interval_cases m <;> decide

theorem digitChar10_not_ws (d : Nat) : isWsChar (digitChar10 d) = false := by
  have h : d % 10 < 10 := Nat.mod_lt _ (by norm_num)
  simp only [digitChar10]
  set m := d % 10 with hm
  interval_cases m <;> decide

theorem charDigitVal_digitChar10 (d : Nat) :
    charDigitVal (digitChar10 d) = d % 10 := by
  have h : d % 10 < 10 := Nat.mod_lt _ (by norm_num)
  simp only [digitChar10]
  set m := d % 10 with hm
  interval_cases m <;> decide

theorem ntcf_ne_nil (fuel n : Nat) (h : fuel ≠ 0) :
    natToCharsF fuel n ≠ [] := by
  cases fuel with
  | zero => exact absurd rfl h
  | succ f =>
    rw [natToCharsF]
    by_cases h10 : n < 10
    · rw [if_pos h10]
      simp
    · rw [if_neg h10]
      simp

theorem ntcf_all_digit (fuel n : Nat) :
    ∀ x ∈ natToCharsF fuel n, x.isDigit = true := by
  induction fuel generalizing n with
  | zero => intro x hx; cases hx
  | succ f ih =>
    intro x hx
    rw [natToCharsF] at hx
    by_cases h10 : n < 10
    · rw [if_pos h10] at hx
      rcases List.mem_singleton.mp hx with rfl
      exact digitChar10_isDigit n
    · rw [if_neg h10] at hx
      rcases List.mem_append.mp hx with h | h
      · exact ih (n / 10) x h
      · rcases List.mem_singleton.mp h with rfl
        exact digitChar10_isDigit n

theorem ntcf_all_not_ws (fuel n : Nat) :
    ∀ x ∈ natToCharsF fuel n, isWsChar x = false := by
  induction fuel generalizing n with
  | zero => intro x hx; cases hx
  | succ f ih =>
    intro x hx
    rw [natToCharsF] at hx
    by_cases h10 : n < 10
    · rw [if_pos h10] at hx
      rcases List.mem_singleton.mp hx with rfl
      exact digitChar10_not_ws n
    · rw [if_neg h10] at hx
      rcases List.mem_append.mp hx with h | h
      · exact ih (n / 10) x h
      · rcases List.mem_singleton.mp h with rfl
        exact digitChar10_not_ws n

theorem digitsVal_append_single (l : List Char) (c : Char) :
    digitsVal (l ++ [c]) = 10 * digitsVal l + charDigitVal c := by
  rw [digitsVal, List.foldl_append]
  rfl

theorem ntcf_val (fuel n : Nat) (h : n ≤ fuel) :
    digitsVal (natToCharsF fuel n) = n := by
  induction fuel generalizing n with
  | zero =>
    have : n = 0 := by omega
    subst this
    rfl
  | succ f ih =>
    rw [natToCharsF]
    by_cases h10 : n < 10
    · rw [if_pos h10]
      show 10 * 0 + charDigitVal (digitChar10 n) = n
      rw [charDigitVal_digitChar10]
      omega
    · rw [if_neg h10]
      rw [digitsVal_append_single, ih (n / 10) (by omega),
        charDigitVal_digitChar10]
      omega

/-! ## Whitespace-splitting facts for appended suffixes -/

theorem takeWhile_append_of_all (p : Char → Bool) (l₁ l₂ : List Char)
    (h : ∀ x ∈ l₁, p x = true) :
    (l₁ ++ l₂).takeWhile p = l₁ ++ l₂.takeWhile p := by
  induction l₁ with
  | nil => rfl
  | cons a t ih =>
    rw [List.cons_append, List.takeWhile_cons,
      h a (List.mem_cons_self a t), List.cons_append]
    rw [ih fun x hx => h x (List.mem_cons_of_mem a hx)]
    rfl

theorem dropWhile_append_of_all (p : Char → Bool) (l₁ l₂ : List Char)
    (h : ∀ x ∈ l₁, p x = true) :
    (l₁ ++ l₂).dropWhile p = l₂.dropWhile p := by
  induction l₁ with
  | nil => rfl
  | cons a t ih =>
    rw [List.cons_append, List.dropWhile_cons, h a (List.mem_cons_self a t)]
    simp only [if_true]
    exact ih fun x hx => h x (List.mem_cons_of_mem a hx)

/-- If trimming is the identity then so is each one-sided trim. -/
theorem strip_parts {l : List Char} (h : pyStrip l = l) :
    l.dropWhile isWsChar = l ∧ List.rdropWhile isWsChar l = l := by
  have hsuf : l.dropWhile isWsChar <:+ l := List.dropWhile_suffix _
  have hpre : List.rdropWhile isWsChar (l.dropWhile isWsChar) <+:
      l.dropWhile isWsChar := List.rdropWhile_prefix _ _
  have hlen1 : (l.dropWhile isWsChar).length ≤ l.length := hsuf.length_le
  have hlen2 : (List.rdropWhile isWsChar (l.dropWhile isWsChar)).length ≤
      (l.dropWhile isWsChar).length := hpre.length_le
  have hlen0 : (List.rdropWhile isWsChar (l.dropWhile isWsChar)).length =
      l.length := by
    rw [show List.rdropWhile isWsChar (l.dropWhile isWsChar) = l from h]
  have hd : l.dropWhile isWsChar = l := hsuf.eq_of_length (by omega)
  refine ⟨hd, ?_⟩
  have h2 := h
  rw [show pyStrip l =
    List.rdropWhile isWsChar (l.dropWhile isWsChar) from rfl, hd] at h2
  exact h2

/-! ## Claim C10 -/

/-- C10: for a non-empty base equal to its trimmed form whose last
whitespace-delimited token is not all digits, and any quantity `q ≥ 1`,
`parseQuantity (formatQuantity base q) = (base, q)`. -/
theorem C10_parse_format_roundtrip (b : String) (q : Nat) (hb : b ≠ "")
    (hstrip : String.mk (pyStrip b.data) = b)
    (hlast : isdigitL (lastTokenOf b) = false) (hq : 1 ≤ q) :
    parseQ (formatQ b q) = (b, q) := by
  have hstrip' : pyStrip b.data = b.data := congrArg String.data hstrip
  rcases Nat.lt_or_ge q 2 with h2 | h2
  · have hq1 : q = 1 := by omega
    subst hq1
    have hf : formatQ b 1 = b := by simp [formatQ]
    rw [hf, C6_parse_eq_amended, parseSpecAmended]
    rw [hlast]
    simp [hstrip]
  · have h1q : 1 < q := by omega
    have hf : formatQ b q = b ++ " " ++ natToString q := by
      rw [formatQ, if_pos h1q]
    set d := natToCharsF (q + 1) q with hdd_def
    have hsp : isWsChar ' ' = true := by decide
    have hw : (b ++ " " ++ natToString q).data = b.data ++ ' ' :: d := by
      rw [String.data_append, String.data_append, List.append_assoc]
      rfl
    have hdne : d ≠ [] := ntcf_ne_nil (q + 1) q (by omega)
    have hdnw : ∀ x ∈ d, isWsChar x = false := ntcf_all_not_ws (q + 1) q
    have hddig : ∀ x ∈ d, x.isDigit = true := ntcf_all_digit (q + 1) q
    obtain ⟨hbd, hbr⟩ := strip_parts hstrip'
    have hbne : b.data ≠ [] := by
      intro h0
      apply hb
      apply String.ext
      rw [h0]
    have hrb : b.data.reverse.dropWhile isWsChar = b.data.reverse := by
      have := congrArg List.reverse hbr
      rw [List.rdropWhile] at this
      rw [← List.reverse_reverse (b.data.reverse.dropWhile isWsChar)]
      rw [this]
    -- trimming the formatted name is the identity
    have hwdrop : (b.data ++ ' ' :: d).dropWhile isWsChar =
        b.data ++ ' ' :: d := by
      cases hbc : b.data with
      | nil => exact absurd hbc hbne
      | cons a u =>
        have haw : isWsChar a = false :=
          head_pyStrip_false b.data (hstrip'.trans hbc)
        rw [List.cons_append, List.dropWhile_cons, haw]
        simp
    have hwr : List.rdropWhile isWsChar (b.data ++ ' ' :: d) =
        b.data ++ ' ' :: d := by
      rw [List.rdropWhile_eq_self_iff]
      intro hl
      rw [List.getLast_append' b.data (' ' :: d) (by simp)]
      rw [List.getLast_cons hdne]
      have hmem := List.getLast_mem hdne
      have hx := hdnw _ hmem
      simp [hx]
    have hps : pyStrip (b.data ++ ' ' :: d) = b.data ++ ' ' :: d := by
      show List.rdropWhile isWsChar
        ((b.data ++ ' ' :: d).dropWhile isWsChar) = _
      rw [hwdrop, hwr]
    have hrev : (pyStrip (b ++ " " ++ natToString q).data).reverse =
        d.reverse ++ ' ' :: b.data.reverse := by
      rw [hw, hps, List.reverse_append, List.reverse_cons, List.append_assoc]
      rfl
    have hrevnw : ∀ x ∈ d.reverse, (!isWsChar x) = true := by
      intro x hx
      rw [hdnw x (List.mem_reverse.mp hx)]
      rfl
    have htok : lastTokenOf (b ++ " " ++ natToString q) = d := by
      rw [lastTokenOf, hrev, takeWhile_append_of_all _ _ _ hrevnw]
      simp [List.takeWhile_cons, hsp]
    have hrest : restBeforeLastToken (b ++ " " ++ natToString q) =
        ' ' :: b.data.reverse := by
      rw [restBeforeLastToken, hrev, dropWhile_append_of_all _ _ _ hrevnw]
      simp [List.dropWhile_cons, hsp]
    have hdig : isdigitL d = true := by
      rw [isdigitL]
      cases hdc : d with
      | nil => exact absurd hdc hdne
      | cons c0 t0 =>
        simp only [List.isEmpty_cons, Bool.not_false, Bool.true_and]
        rw [List.all_eq_true]
        intro x hx
        exact hddig x (hdc ▸ hx)
    rw [hf, C6_parse_eq_amended, parseSpecAmended, htok, hrest, hdig]
    simp only [List.isEmpty_cons, Bool.not_false, Bool.and_true, if_true]
    have hpre : ((' ' :: b.data.reverse).dropWhile isWsChar).reverse =
        b.data := by
      rw [List.dropWhile_cons]
      simp only [hsp, if_true]
      rw [hrb, List.reverse_reverse]
    rw [hpre]
    have hval : digitsVal d = q := ntcf_val (q + 1) q (by omega)
    rw [hval]

/-- Witness for C10 at base `"eggs"`, quantity 2. -/
theorem C10_parse_format_roundtrip_witness :
    parseQ (formatQ "eggs" 2) = ("eggs", 2) :=
  C10_parse_format_roundtrip "eggs" 2 (by decide) (by decide) (by decide)
    (by decide)

/-! ## Lemmas for the consolidation claim -/

theorem firstSeen_go_mem (xs : List String) (y : String) :
    ∀ acc : List String,
      (y ∈ xs.foldl
        (fun acc k => if acc.contains k then acc else acc ++ [k]) acc ↔
        y ∈ acc ∨ y ∈ xs) := by
  induction xs with
  | nil => intro acc; simp
  | cons x xs ih =>
    intro acc
    rw [List.foldl_cons]
    by_cases hx : acc.contains x
    · rw [if_pos hx]
      rw [ih acc]
      constructor
      · rintro (h | h)
        · exact Or.inl h
        · exact Or.inr (List.mem_cons_of_mem x h)
      · rintro (h | h)
        · exact Or.inl h
        · rcases List.mem_cons.mp h with rfl | h'
          · exact Or.inl (List.elem_iff.mp hx)
          · exact Or.inr h'
    · rw [if_neg hx]
      rw [ih (acc ++ [x])]
      simp only [List.mem_append, List.mem_singleton, List.mem_cons]
      tauto

theorem mem_firstSeen (xs : List String) (y : String) :
    y ∈ firstSeen xs ↔ y ∈ xs := by
  rw [firstSeen, firstSeen_go_mem]
  simp

theorem firstSeen_go_nodup (xs : List String) :
    ∀ acc : List String, acc.Nodup →
      (xs.foldl
        (fun acc k => if acc.contains k then acc else acc ++ [k]) acc).Nodup := by
  induction xs with
  | nil => intro acc h; exact h
  | cons x xs ih =>
    intro acc hacc
    rw [List.foldl_cons]
    by_cases hx : acc.contains x
    · rw [if_pos hx]
      exact ih acc hacc
    · rw [if_neg hx]
      apply ih
      rw [List.nodup_append]
      refine ⟨hacc, List.nodup_singleton x, ?_⟩
      intro a ha hax
      rcases List.mem_singleton.mp hax with rfl
      exact hx (List.elem_iff.mpr ha)

theorem firstSeen_nodup (xs : List String) : (firstSeen xs).Nodup :=
  firstSeen_go_nodup xs [] List.nodup_nil

theorem firstSeen_append_singleton (xs : List String) (x : String) :
    firstSeen (xs ++ [x]) =
      if x ∈ xs then firstSeen xs else firstSeen xs ++ [x] := by
  rw [firstSeen, List.foldl_append, List.foldl_cons, List.foldl_nil]
  by_cases hx : x ∈ xs
  · have hc : (firstSeen xs).contains x = true :=
      List.elem_iff.mpr ((mem_firstSeen xs x).mpr hx)
    rw [if_pos hx]
    show (if (firstSeen xs).contains x = true then firstSeen xs
      else firstSeen xs ++ [x]) = firstSeen xs
    rw [if_pos hc]
  · have hc : ¬(firstSeen xs).contains x = true := fun h =>
      hx ((mem_firstSeen xs x).mp (List.elem_iff.mp h))
    rw [if_neg hx]
    show (if (firstSeen xs).contains x = true then firstSeen xs
      else firstSeen xs ++ [x]) = firstSeen xs ++ [x]
    rw [if_neg hc]

theorem getK?_mapOfKeys (keys : List String) (f : String → String × Nat)
    {k : String} (hk : k ∈ keys) :
    getK? (keys.map fun kk => (kk, f kk)) k = some (f k) := by
  induction keys with
  | nil => cases hk
  | cons k0 rest ih =>
    by_cases h0 : k0 = k
    · subst h0
      exact getK?_cons_self k0 (f k0) _
    · rw [List.map_cons, getK?_cons_ne h0]
      rcases List.mem_cons.mp hk with h | h
      · exact absurd h.symm h0
      · exact ih h

theorem containsK_mapOfKeys (keys : List String) (f : String → String × Nat)
    (x : String) :
    containsK (keys.map fun kk => (kk, f kk)) x = true ↔ x ∈ keys := by
  induction keys with
  | nil => simp [containsK]
  | cons k0 rest ih =>
    by_cases h0 : k0 = x
    · subst h0
      rw [List.map_cons, containsK_eq_isSome_getK?, getK?_cons_self]
      simp
    · rw [List.map_cons, containsK_eq_isSome_getK?, getK?_cons_ne h0,
        ← containsK_eq_isSome_getK?, ih]
      simp only [List.mem_cons]
      constructor
      · exact fun h => Or.inr h
      · rintro (h | h)
        · exact absurd h.symm h0
        · exact h

theorem setK_mapOfKeys (keys : List String) (f : String → String × Nat)
    {k : String} (v : String × Nat) (hnd : keys.Nodup) (hk : k ∈ keys) :
    setK (keys.map fun kk => (kk, f kk)) k v =
      keys.map fun kk => (kk, if kk = k then v else f kk) := by
  induction keys with
  | nil => cases hk
  | cons k0 rest ih =>
    rw [List.map_cons, List.map_cons]
    by_cases h0 : k0 = k
    · subst h0
      rw [setK_cons_self, if_pos rfl]
      congr 1
      apply List.map_congr_left
      intro a ha
      have hne : a ≠ k0 := by
        intro h
        subst h
        exact (List.nodup_cons.mp hnd).1 ha
      rw [if_neg hne]
    · rw [setK_cons_ne h0, if_neg h0]
      congr 1
      rcases List.mem_cons.mp hk with h | h
      · exact absurd h.symm h0
      · exact ih (List.nodup_cons.mp hnd).2 h

/-- The invariant shape of the running `item_data` map: one entry per spec
key, holding the first-seen base and the running sum. -/
def mapForm (items : List CheckItem) : ItemData :=
  (specKeys items).map fun k => (k, firstBase items k, sumQty items k)

theorem specKeys_mem_iff (items : List CheckItem) (k' : String) :
    k' ∈ specKeys items ↔
      ((items.filter keepItem).find?
        (fun it => baseKeyOf it == k')).isSome = true := by
  rw [specKeys, mem_firstSeen, List.find?_isSome]
  constructor
  · intro h
    obtain ⟨it, hit, hbk⟩ := List.mem_map.mp h
    exact ⟨it, hit, by rw [hbk]; exact beq_self_eq_true k'⟩
  · rintro ⟨it, hit, hp⟩
    exact List.mem_map.mpr ⟨it, hit, by simpa using hp⟩

theorem mapForm_filter_congr {l1 l2 : List CheckItem}
    (h : l1.filter keepItem = l2.filter keepItem) : mapForm l1 = mapForm l2 := by
  have h1 : ∀ k, sumQty l1 k = sumQty l2 k := fun k => by
    rw [sumQty, sumQty, h]
  have h2 : ∀ k, firstBase l1 k = firstBase l2 k := fun k => by
    rw [firstBase, firstBase, h]
  have h3 : specKeys l1 = specKeys l2 := by rw [specKeys, specKeys, h]
  rw [mapForm, mapForm, h3]
  apply List.map_congr_left
  intro k _
  rw [h1, h2]

theorem filter_keep_append_incomplete (l : List CheckItem) (it : CheckItem)
    (hkc : keepItem it = true) :
    (l ++ [it]).filter keepItem = l.filter keepItem ++ [it] := by
  rw [List.filter_append, List.filter_cons, if_pos hkc, List.filter_nil]

theorem sumQty_append_incomplete (l : List CheckItem) (it : CheckItem)
    (hkc : keepItem it = true) (k' : String) :
    sumQty (l ++ [it]) k' =
      sumQty l k' + (if baseKeyOf it == k' then (parseQ it.name).2 else 0) := by
  rw [sumQty, sumQty, filter_keep_append_incomplete l it hkc,
    List.filter_append, List.map_append, List.sum_append]
  congr 1
  rw [List.filter_cons, List.filter_nil]
  by_cases hb : (baseKeyOf it == k') = true
  · rw [if_pos hb, if_pos hb]
    simp
  · rw [if_neg hb, if_neg hb]
    rfl

theorem firstBase_append_incomplete_mem (l : List CheckItem) (it : CheckItem)
    (hkc : keepItem it = true) (k' : String) (hmem : k' ∈ specKeys l) :
    firstBase (l ++ [it]) k' = firstBase l k' := by
  have hsome := (specKeys_mem_iff l k').mp hmem
  obtain ⟨x, hx⟩ := Option.isSome_iff_exists.mp hsome
  rw [firstBase, firstBase, filter_keep_append_incomplete l it hkc,
    List.find?_append, hx]
  rfl

theorem firstBase_append_incomplete_new (l : List CheckItem) (it : CheckItem)
    (hkc : keepItem it = true) (hmem : baseKeyOf it ∉ specKeys l) :
    firstBase (l ++ [it]) (baseKeyOf it) = (parseQ it.name).1 := by
  have hnone : (l.filter keepItem).find?
      (fun it2 => baseKeyOf it2 == baseKeyOf it) = none := by
    rcases hf : (l.filter keepItem).find?
        (fun it2 => baseKeyOf it2 == baseKeyOf it) with _ | x
    · rfl
    · exfalso
      apply hmem
      rw [specKeys_mem_iff, hf]
      rfl
  have hone : List.find? (fun it2 => baseKeyOf it2 == baseKeyOf it) [it] =
      some it := by
    simp [List.find?]
  rw [firstBase, filter_keep_append_incomplete l it hkc, List.find?_append,
    hnone, hone]
  rfl

theorem sumQty_zero_of_not_mem (l : List CheckItem) (k' : String)
    (hmem : k' ∉ specKeys l) : sumQty l k' = 0 := by
  rw [sumQty]
  have hnil : (l.filter keepItem).filter
      (fun it2 => baseKeyOf it2 == k') = [] := by
    rw [List.filter_eq_nil_iff]
    intro it2 hit2 hbeq
    apply hmem
    rw [specKeys_mem_iff, List.find?_isSome]
    exact ⟨it2, hit2, hbeq⟩
  rw [hnil]
  rfl

theorem specKeys_append_incomplete (l : List CheckItem) (it : CheckItem)
    (hkc : keepItem it = true) :
    specKeys (l ++ [it]) = if baseKeyOf it ∈ specKeys l then specKeys l
      else specKeys l ++ [baseKeyOf it] := by
  rw [specKeys, filter_keep_append_incomplete l it hkc, List.map_append,
    List.map_singleton, firstSeen_append_singleton]
  by_cases hm : baseKeyOf it ∈ (l.filter keepItem).map baseKeyOf
  · have hmm : baseKeyOf it ∈ specKeys l := (mem_firstSeen _ _).mpr hm
    rw [if_pos hm, if_pos hmm]
    rfl
  · have hmm : baseKeyOf it ∉ specKeys l := fun hc =>
      hm ((mem_firstSeen _ _).mp hc)
    rw [if_neg hm, if_neg hmm]
    rfl

/-- The merge loop's running map always has the invariant shape. -/
theorem itemData_eq_mapForm (items : List CheckItem) :
    items.foldl consStep [] = mapForm items := by
  induction items using List.reverseRecOn with
  | nil => rfl
  | append_singleton l it ih =>
    rw [List.foldl_append, List.foldl_cons, List.foldl_nil, ih]
    cases hkc : keepItem it with
    | false =>
      have hcompl : (it.state == "complete") = true := by
        rw [keepItem] at hkc
        simpa using hkc
      have hstep : consStep (mapForm l) it = mapForm l := by
        rw [consStep, if_pos hcompl]
      rw [hstep]
      apply mapForm_filter_congr
      rw [List.filter_append, List.filter_cons,
        if_neg (by rw [hkc]; exact Bool.false_ne_true), List.filter_nil,
        List.append_nil]
    | true =>
      have hnc : ¬(it.state == "complete") = true := by
        rw [keepItem] at hkc
        simpa using hkc
      have hfold : consStep (mapForm l) it =
          (if containsK (mapForm l) (baseKeyOf it) = true then
            setK (mapForm l) (baseKeyOf it)
              ((getKD (mapForm l) (baseKeyOf it) ("", 0)).1,
                (getKD (mapForm l) (baseKeyOf it) ("", 0)).2 +
                  (parseQ it.name).2)
          else mapForm l ++
            [(baseKeyOf it, (parseQ it.name).1, (parseQ it.name).2)]) := by
        rw [consStep, if_neg hnc]
        rfl
      rw [hfold]
      by_cases hmem : baseKeyOf it ∈ specKeys l
      · have hcont : containsK (mapForm l) (baseKeyOf it) = true :=
          (containsK_mapOfKeys (specKeys l)
            (fun k => (firstBase l k, sumQty l k)) (baseKeyOf it)).mpr hmem
        have hget : getK? (mapForm l) (baseKeyOf it) =
            some (firstBase l (baseKeyOf it), sumQty l (baseKeyOf it)) :=
          getK?_mapOfKeys (specKeys l)
            (fun k => (firstBase l k, sumQty l k)) hmem
        rw [if_pos hcont, getKD_of_getK? hget ("", 0)]
        simp only [mapForm]
        rw [setK_mapOfKeys (specKeys l)
          (fun k => (firstBase l k, sumQty l k)) _ (firstSeen_nodup _) hmem]
        rw [specKeys_append_incomplete l it hkc, if_pos hmem]
        apply List.map_congr_left
        intro k' hk'
        rw [sumQty_append_incomplete l it hkc,
          firstBase_append_incomplete_mem l it hkc k' hk']
        by_cases hkeq : k' = baseKeyOf it
        · subst hkeq
          rw [if_pos rfl, beq_self_eq_true (baseKeyOf it)]
          rfl
        · rw [if_neg hkeq]
          have hb : (baseKeyOf it == k') = false := by
            simpa using Ne.symm hkeq
          rw [hb]
          rfl
      · have hcont : ¬containsK (mapForm l) (baseKeyOf it) = true := fun hc =>
          hmem ((containsK_mapOfKeys (specKeys l)
            (fun k => (firstBase l k, sumQty l k)) (baseKeyOf it)).mp hc)
        rw [if_neg hcont]
        simp only [mapForm]
        rw [specKeys_append_incomplete l it hkc, if_neg hmem,
          List.map_append, List.map_singleton]
        congr 1
        · apply List.map_congr_left
          intro k' hk'
          have hkne : k' ≠ baseKeyOf it := fun h => hmem (h ▸ hk')
          rw [sumQty_append_incomplete l it hkc,
            firstBase_append_incomplete_mem l it hkc k' hk']
          have hb : (baseKeyOf it == k') = false := by
            simpa using Ne.symm hkne
          rw [hb]
          rfl
        · rw [firstBase_append_incomplete_new l it hkc hmem,
            sumQty_append_incomplete l it hkc,
            sumQty_zero_of_not_mem l (baseKeyOf it) hmem,
            beq_self_eq_true (baseKeyOf it)]
          simp

/-! ## Claim C5 -/

/-- C5: the consolidation loop emits exactly one entry per distinct lowercase
base among the items whose state is not "complete", in first-insertion
order; each entry's quantity is the sum of the parsed quantities of its
incomplete occurrences and its display name is `formatQuantity` of the first
incomplete occurrence's original-case base and that sum; complete items
contribute nothing. -/
theorem C5_consolidate_eq_spec (items : List CheckItem) :
    consolidate items = specConsolidate items := by
  rw [consolidate, itemData_eq_mapForm, mapForm, specConsolidate,
    List.map_map]
  rfl

/-! ## Claim C1 -/

/-- C1 fails as stated: a checklist of two items with distinct positions but
the same name trains that shared name's keys, and the final ratings looked up
for the two (identical) names coincide, so neither is strictly lower. -/
theorem C1_counterexample :
    (⟨"x", 1, "incomplete"⟩ : CheckItem).pos ≠
      (⟨"x", 2, "incomplete"⟩ : CheckItem).pos ∧
    ¬ lookup
        (train ⟨"cl", "card",
          [⟨"x", 1, "incomplete"⟩, ⟨"x", 2, "incomplete"⟩]⟩ [])
        (⟨"x", 1, "incomplete"⟩ : CheckItem).name <
      lookup
        (train ⟨"cl", "card",
          [⟨"x", 1, "incomplete"⟩, ⟨"x", 2, "incomplete"⟩]⟩ [])
        (⟨"x", 2, "incomplete"⟩ : CheckItem).name :=
  ⟨by decide, lt_irrefl _⟩

theorem eloExpected_pos (ra rb : ℝ) : 0 < eloExpected ra rb := by
  have h := Real.rpow_pos_of_pos (show (0 : ℝ) < 10 by norm_num)
    ((rb - ra) / 400)
  rw [eloExpected]
  exact div_pos one_pos (by linarith)

theorem eloExpected_lt_one (ra rb : ℝ) : eloExpected ra rb < 1 := by
  have h := Real.rpow_pos_of_pos (show (0 : ℝ) < 10 by norm_num)
    ((rb - ra) / 400)
  rw [eloExpected, div_lt_one (by linarith)]
  linarith

theorem innerStep_same (cur : CheckItem) (st : Store × ℝ) (cmp : CheckItem)
    (h : cur.pos = cmp.pos) : innerStep cur st cmp = st := by
  rw [innerStep, if_pos h]

theorem innerStep_ne (cur : CheckItem) (st : Store × ℝ) (cmp : CheckItem)
    (h : ¬cur.pos = cmp.pos) :
    innerStep cur st cmp =
      (update
        (update st.1 cur.name
          (eloUpdate (eloExpected st.2 (lookup st.1 cmp.name))
            (if cur.pos < cmp.pos then 0 else 1) st.2))
        cmp.name
        (eloUpdate
          (eloExpected (lookup st.1 cmp.name)
            (eloUpdate (eloExpected st.2 (lookup st.1 cmp.name))
              (if cur.pos < cmp.pos then 0 else 1) st.2))
          (if cmp.pos < cur.pos then 0 else 1) (lookup st.1 cmp.name)),
       eloUpdate (eloExpected st.2 (lookup st.1 cmp.name))
         (if cur.pos < cmp.pos then 0 else 1) st.2) := by
  rw [innerStep, if_neg h]

/-- C1 (amended): on a two-item checklist whose names derive disjoint
candidate key sets, and whose prior ratings do not already rank the
lower-position item above the higher one, one `train` pass makes the
lower-position item's looked-up rating strictly lower. -/
theorem C1_train_two_items_orders (cid card : String) (i1 i2 : CheckItem)
    (prior : Store)
    (hdisj : ∀ c ∈ candidates i1.name, c ∉ candidates i2.name) :
    (i1.pos < i2.pos →
      lookup prior i1.name ≤ lookup prior i2.name →
      lookup (train ⟨cid, card, [i1, i2]⟩ prior) i1.name <
        lookup (train ⟨cid, card, [i1, i2]⟩ prior) i2.name) ∧
    (i2.pos < i1.pos →
      lookup prior i2.name ≤ lookup prior i1.name →
      lookup (train ⟨cid, card, [i1, i2]⟩ prior) i2.name <
        lookup (train ⟨cid, card, [i1, i2]⟩ prior) i1.name) := by
  have hdisj' : ∀ c ∈ candidates i2.name, c ∉ candidates i1.name :=
    fun c h2 h1 => hdisj c h1 h2
  have htr : train ⟨cid, card, [i1, i2]⟩ prior =
      outerStep [i1, i2] (outerStep [i1, i2] prior i1) i2 := rfl
  constructor
  · intro hp hle
    have h12 : ¬i1.pos = i2.pos := by omega
    have h21 : ¬i2.pos = i1.pos := by omega
    have hn21 : ¬i2.pos < i1.pos := by omega
    set v1 := lookup prior i1.name with hv1
    set v2 := lookup prior i2.name with hv2
    set X := eloUpdate (eloExpected v1 v2) 0 v1 with hX
    set Y := eloUpdate (eloExpected v2 X) 1 v2 with hY
    have hA : outerStep [i1, i2] prior i1 =
        update (update prior i1.name X) i2.name Y := by
      rw [outerStep, List.foldl_cons, List.foldl_cons, List.foldl_nil,
        innerStep_same i1 _ i1 rfl, innerStep_ne i1 _ i2 h12,
        if_pos hp, if_neg hn21]
    set sA := outerStep [i1, i2] prior i1 with hsA
    have hlA1 : lookup sA i1.name = X := by
      rw [hA, lookup_update_of_disjoint _ _ hdisj, lookup_update_self]
    have hlA2 : lookup sA i2.name = Y := by
      rw [hA, lookup_update_self]
    have hB : outerStep [i1, i2] sA i2 =
        update
          (update sA i2.name
            (eloUpdate (eloExpected (lookup sA i2.name) (lookup sA i1.name))
              1 (lookup sA i2.name)))
          i1.name
          (eloUpdate
            (eloExpected (lookup sA i1.name)
              (eloUpdate
                (eloExpected (lookup sA i2.name) (lookup sA i1.name))
                1 (lookup sA i2.name)))
            0 (lookup sA i1.name)) := by
      rw [outerStep, List.foldl_cons, List.foldl_cons, List.foldl_nil,
        innerStep_same i2 _ i2 rfl, innerStep_ne i2 _ i1 h21,
        if_neg hn21, if_pos hp]
    rw [hlA1, hlA2] at hB
    have hfin1 : lookup (train ⟨cid, card, [i1, i2]⟩ prior) i1.name =
        eloUpdate (eloExpected X (eloUpdate (eloExpected Y X) 1 Y)) 0 X := by
      rw [htr, hB, lookup_update_self]
    have hfin2 : lookup (train ⟨cid, card, [i1, i2]⟩ prior) i2.name =
        eloUpdate (eloExpected Y X) 1 Y := by
      rw [htr, hB, lookup_update_of_disjoint _ _ hdisj', lookup_update_self]
    rw [hfin1, hfin2]
    have h1 : 0 < eloExpected v1 v2 := eloExpected_pos _ _
    have h2 : eloExpected v2 X < 1 := eloExpected_lt_one _ _
    have h3 : eloExpected Y X < 1 := eloExpected_lt_one _ _
    have h4 : 0 < eloExpected X (eloUpdate (eloExpected Y X) 1 Y) :=
      eloExpected_pos _ _
    have hXv : X = v1 + 32 * (0 - eloExpected v1 v2) := by rw [hX, eloUpdate]
    have hYv : Y = v2 + 32 * (1 - eloExpected v2 X) := by rw [hY, eloUpdate]
    rw [eloUpdate] at h4
    rw [eloUpdate, eloUpdate]
    linarith
  · intro hp hle
    have h12 : ¬i1.pos = i2.pos := by omega
    have h21 : ¬i2.pos = i1.pos := by omega
    have hn12 : ¬i1.pos < i2.pos := by omega
    set v1 := lookup prior i1.name with hv1
    set v2 := lookup prior i2.name with hv2
    set X := eloUpdate (eloExpected v1 v2) 1 v1 with hX
    set Y := eloUpdate (eloExpected v2 X) 0 v2 with hY
    have hA : outerStep [i1, i2] prior i1 =
        update (update prior i1.name X) i2.name Y := by
      rw [outerStep, List.foldl_cons, List.foldl_cons, List.foldl_nil,
        innerStep_same i1 _ i1 rfl, innerStep_ne i1 _ i2 h12,
        if_neg hn12, if_pos hp]
    set sA := outerStep [i1, i2] prior i1 with hsA
    have hlA1 : lookup sA i1.name = X := by
      rw [hA, lookup_update_of_disjoint _ _ hdisj, lookup_update_self]
    have hlA2 : lookup sA i2.name = Y := by
      rw [hA, lookup_update_self]
    have hB : outerStep [i1, i2] sA i2 =
        update
          (update sA i2.name
            (eloUpdate (eloExpected (lookup sA i2.name) (lookup sA i1.name))
              0 (lookup sA i2.name)))
          i1.name
          (eloUpdate
            (eloExpected (lookup sA i1.name)
              (eloUpdate
                (eloExpected (lookup sA i2.name) (lookup sA i1.name))
                0 (lookup sA i2.name)))
            1 (lookup sA i1.name)) := by
      rw [outerStep, List.foldl_cons, List.foldl_cons, List.foldl_nil,
        innerStep_same i2 _ i2 rfl, innerStep_ne i2 _ i1 h21,
        if_pos hp, if_neg hn12]
    rw [hlA1, hlA2] at hB
    have hfin1 : lookup (train ⟨cid, card, [i1, i2]⟩ prior) i1.name =
        eloUpdate (eloExpected X (eloUpdate (eloExpected Y X) 0 Y)) 1 X := by
      rw [htr, hB, lookup_update_self]
    have hfin2 : lookup (train ⟨cid, card, [i1, i2]⟩ prior) i2.name =
        eloUpdate (eloExpected Y X) 0 Y := by
      rw [htr, hB, lookup_update_of_disjoint _ _ hdisj', lookup_update_self]
    rw [hfin1, hfin2]
    have h1 : eloExpected v1 v2 < 1 := eloExpected_lt_one _ _
    have h2 : 0 < eloExpected v2 X := eloExpected_pos _ _
    have h3 : 0 < eloExpected Y X := eloExpected_pos _ _
    have h4 : eloExpected X (eloUpdate (eloExpected Y X) 0 Y) < 1 :=
      eloExpected_lt_one _ _
    have hXv : X = v1 + 32 * (1 - eloExpected v1 v2) := by rw [hX, eloUpdate]
    have hYv : Y = v2 + 32 * (0 - eloExpected v2 X) := by rw [hY, eloUpdate]
    rw [eloUpdate] at h4
    rw [eloUpdate, eloUpdate]
    linarith

/-- Witness for C1 (amended): two fresh disjoint names on an empty prior. -/
theorem C1_train_two_items_orders_witness :
    lookup (train ⟨"cl", "card",
        [⟨"a", 1, "incomplete"⟩, ⟨"b", 2, "incomplete"⟩]⟩ []) "a" <
      lookup (train ⟨"cl", "card",
        [⟨"a", 1, "incomplete"⟩, ⟨"b", 2, "incomplete"⟩]⟩ []) "b" :=
  (C1_train_two_items_orders "cl" "card" ⟨"a", 1, "incomplete"⟩
    ⟨"b", 2, "incomplete"⟩ [] (by decide)).1 (by decide) (le_refl _)
